import Mathlib

/-!
Verification of the password generation engine of `pwgen.py`.

The embedding models the two generators `pw_rand` and `pw_phonemes`
as pure functions of the target size, the flag configuration, the
removed-character list, an abstract random-index stream
`s : Nat → Nat` (the value drawn for a call `pw_number_fn n` at the
i-th draw is `s i % n`), and a fuel bound standing for the number of
loop steps the unbounded retry loops are allowed to take.  A `none`
(or `timeout`) result means the fuel ran out; claims about terminating
runs are conditioned on a non-`timeout` result.
-/

namespace Pwgen

/-- `pw_digits` string of the source. -/
def pw_digits : List Char := ['0', '1', '2', '3', '4', '5', '6', '7', '8', '9']

/-- `pw_uppers` string of the source. -/
def pw_uppers : List Char :=
  ['A', 'B', 'C', 'D', 'E', 'F', 'G', 'H', 'I', 'J', 'K', 'L', 'M',
   'N', 'O', 'P', 'Q', 'R', 'S', 'T', 'U', 'V', 'W', 'X', 'Y', 'Z']

/-- `pw_lowers` string of the source. -/
def pw_lowers : List Char :=
  ['a', 'b', 'c', 'd', 'e', 'f', 'g', 'h', 'i', 'j', 'k', 'l', 'm',
   'n', 'o', 'p', 'q', 'r', 's', 't', 'u', 'v', 'w', 'x', 'y', 'z']

/-- `pw_symbols` string of the source (32 ASCII symbol characters). -/
def pw_symbols : List Char :=
  ['!', Char.ofNat 34, '#', '$', '%', '&', Char.ofNat 39, '(', ')', '*', '+', ',', '-', '.', '/',
   ':', ';', '<', '=', '>', '?', '@', '[', Char.ofNat 92, ']', '^', '_', Char.ofNat 96,
   Char.ofNat 123, '|', Char.ofNat 125, '~']

/-- `pw_ambiguous` string of the source. -/
def pw_ambiguous : List Char :=
  ['B', '8', 'G', '6', 'I', '1', 'l', '0', 'O', 'Q', 'D', 'S', '5', 'Z', '2']

/-- `pw_vowels` string of the source. -/
def pw_vowels : List Char :=
  ['0', '1', 'a', 'e', 'i', 'o', 'u', 'y', 'A', 'E', 'I', 'O', 'U', 'Y']

/-- The `pw_flags` bitmask (PW_DIGITS, PW_UPPERS, PW_SYMBOLS, PW_AMBIGUOUS,
PW_NO_VOWELS) of the source, one field per bit. -/
structure PwFlags where
  digits : Bool
  uppers : Bool
  symbols : Bool
  ambiguous : Bool
  noVowels : Bool
deriving Repr, DecidableEq

/-- The three bits of `feature_flags` that the generators clear as the
corresponding character classes get satisfied (`PW_DIGITS`, `PW_UPPERS`,
`PW_SYMBOLS`); the final acceptance check of both generators masks
`feature_flags` with exactly these three bits. -/
structure FFlags where
  digits : Bool
  uppers : Bool
  symbols : Bool
deriving Repr, DecidableEq

/-- `feature_flags` with all three required-class bits clear: the
acceptance condition `not (feature_flags & (PW_UPPERS|PW_DIGITS|PW_SYMBOLS))`. -/
def allClear : FFlags := ⟨false, false, false⟩

/-- The four `SystemExit` configuration errors of `pw_rand`. -/
inductive PwErr where
  | noDigits
  | noUppers
  | noSymbols
  | noChars
deriving Repr, DecidableEq

/-- Result of a `pw_rand` run: a password together with the number of
random indices consumed, a configuration error, or fuel exhaustion. -/
inductive PwResult where
  | ok (pw : String) (pos : Nat)
  | err (e : PwErr)
  | timeout
deriving Repr, DecidableEq

/-- Whether a `PwResult` is a configuration error. -/
def PwResult.isErr : PwResult → Bool
  | .err _ => true
  | _ => false

/-- `charsets` construction of `pw_rand` (lines 215-223): digits (if
`PW_DIGITS`), uppers (if `PW_UPPERS`), lowers, symbols (if `PW_SYMBOLS`),
concatenated in that order. -/
def buildChars (flags : PwFlags) : List Char :=
  (if flags.digits then pw_digits else []) ++
  (if flags.uppers then pw_uppers else []) ++
  pw_lowers ++
  (if flags.symbols then pw_symbols else [])

/-- The extension of `remove` performed at lines 225-228: when the
corresponding flags are set, the ambiguous and vowel sets are appended
to the user-given removal string. -/
def extendRemove (flags : PwFlags) (remove : List Char) : List Char :=
  remove ++ (if flags.ambiguous then pw_ambiguous else []) ++
    (if flags.noVowels then pw_vowels else [])

/-- The `chars` alphabet `pw_rand` samples from: filtered by the extended
removal list when `remove` is non-empty (line 229), unfiltered otherwise. -/
def pw_valid_chars (flags : PwFlags) (remove : List Char) : List Char :=
  if remove = [] then buildChars flags
  else (buildChars flags).filter (fun c => c ∉ extendRemove flags remove)

/-- The fail-fast configuration checks of `pw_rand` (lines 230-237), in
source order; they run only when `remove` is non-empty. -/
def pw_check (flags : PwFlags) (remove : List Char) : Option PwErr :=
  if remove = [] then none
  else
    let chars := pw_valid_chars flags remove
    if flags.digits = true ∧ chars.all (fun c => c ∉ pw_digits) then some .noDigits
    else if flags.uppers = true ∧ chars.all (fun c => c ∉ pw_uppers) then some .noUppers
    else if flags.symbols = true ∧ chars.all (fun c => c ∉ pw_symbols) then some .noSymbols
    else if chars = [] then some .noChars
    else none

/-- The three `feature_flags` clearing statements of `pw_rand`
(lines 249-254), applied after a character is appended. -/
def clearFlags (ff : FFlags) (ch : Char) : FFlags :=
  let f1 := if ff.digits = true ∧ ch ∈ pw_digits then { ff with digits := false } else ff
  let f2 := if f1.uppers = true ∧ ch ∈ pw_uppers then { f1 with uppers := false } else f1
  if f2.symbols = true ∧ ch ∈ pw_symbols then { f2 with symbols := false } else f2

/-- The character-fill loop of `pw_rand` (lines 242-254): draw characters
via `next_index(len(chars))`, skipping ambiguous/vowel characters when the
flags demand it, until the buffer holds `size` characters.  Returns the
buffer, the remaining feature flags and the stream position. -/
def pw_rand_fill (s : Nat → Nat) (chars : List Char) (flags : PwFlags) (size : Int) :
    Nat → List Char → FFlags → Nat → Option (List Char × FFlags × Nat)
  | 0, res, ff, pos =>
    if (res.length : Int) < size then none else some (res, ff, pos)
  | fuel + 1, res, ff, pos =>
    if (res.length : Int) < size then
      let ch := chars.getD (s pos % chars.length) 'a'
      if flags.ambiguous = true ∧ ch ∈ pw_ambiguous then
        pw_rand_fill s chars flags size fuel res ff (pos + 1)
      else if flags.noVowels = true ∧ ch ∈ pw_vowels then
        pw_rand_fill s chars flags size fuel res ff (pos + 1)
      else
        pw_rand_fill s chars flags size fuel (res ++ [ch]) (clearFlags ff ch) (pos + 1)
    else some (res, ff, pos)

/-- The outer attempt loop of `pw_rand` (lines 239-256): each attempt
resets the buffer and the working flags (`pw_flags` when `size > 2`,
nothing otherwise), fills the buffer and accepts it when every required
class was seen. -/
def pw_rand_loop (s : Nat → Nat) (chars : List Char) (flags : PwFlags) (size : Int) :
    Nat → Nat → Option (String × Nat)
  | 0, _ => none
  | fuel + 1, pos =>
    let ff0 := if 2 < size then FFlags.mk flags.digits flags.uppers flags.symbols else allClear
    match pw_rand_fill s chars flags size fuel [] ff0 pos with
    | none => none
    | some (res, ff, pos2) =>
      if ff = allClear then some (String.mk res, pos2)
      else pw_rand_loop s chars flags size fuel pos2

/-- `pw_rand` (lines 214-256): build the alphabet, run the fail-fast
configuration checks, then sample with rejection until all required
classes appear. -/
def pw_rand (size : Int) (flags : PwFlags) (remove : List Char) (s : Nat → Nat)
    (fuel : Nat) : PwResult :=
  match pw_check flags remove with
  | some e => .err e
  | none =>
    match pw_rand_loop s (pw_valid_chars flags remove) flags size fuel 0 with
    | some (pw, pos) => .ok pw pos
    | none => .timeout

/-- The characters of the full alphabet that survive the exclusion set
(user removals extended, per the data model, by the ambiguous and vowel
sets when the corresponding flags are set). -/
def eligibleAlphabet (flags : PwFlags) (remove : List Char) : List Char :=
  (buildChars flags).filter (fun c => c ∉ extendRemove flags remove)

/-! ## The phoneme generator -/

/-- The `CONSONANT` element tag bit. -/
def CONSONANT : Nat := 1

/-- The `VOWEL` element tag bit. -/
def VOWEL : Nat := 2

/-- The `DIPTHONG` element tag bit. -/
def DIPTHONG : Nat := 4

/-- The `NOT_FIRST` element tag bit. -/
def NOT_FIRST : Nat := 8

/-- The fixed grammar table `elements` of the source (40 entries, in
dictionary insertion order, as enumerated by `list(elements)`). -/
def elements : List (List Char × Nat) :=
  [(['a'], VOWEL),
   (['a', 'e'], VOWEL ||| DIPTHONG),
   (['a', 'h'], VOWEL ||| DIPTHONG),
   (['a', 'i'], VOWEL ||| DIPTHONG),
   (['b'], CONSONANT),
   (['c'], CONSONANT),
   (['c', 'h'], CONSONANT ||| DIPTHONG),
   (['d'], CONSONANT),
   (['e'], VOWEL),
   (['e', 'e'], VOWEL ||| DIPTHONG),
   (['e', 'i'], VOWEL ||| DIPTHONG),
   (['f'], CONSONANT),
   (['g'], CONSONANT),
   (['g', 'h'], CONSONANT ||| DIPTHONG ||| NOT_FIRST),
   (['h'], CONSONANT),
   (['i'], VOWEL),
   (['i', 'e'], VOWEL ||| DIPTHONG),
   (['j'], CONSONANT),
   (['k'], CONSONANT),
   (['l'], CONSONANT),
   (['m'], CONSONANT),
   (['n'], CONSONANT),
   (['n', 'g'], CONSONANT ||| DIPTHONG ||| NOT_FIRST),
   (['o'], VOWEL),
   (['o', 'h'], VOWEL ||| DIPTHONG),
   (['o', 'o'], VOWEL ||| DIPTHONG),
   (['p'], CONSONANT),
   (['p', 'h'], CONSONANT ||| DIPTHONG),
   (['q', 'u'], CONSONANT ||| DIPTHONG),
   (['r'], CONSONANT),
   (['s'], CONSONANT),
   (['s', 'h'], CONSONANT ||| DIPTHONG),
   (['t'], CONSONANT),
   (['t', 'h'], CONSONANT ||| DIPTHONG),
   (['u'], VOWEL),
   (['v'], CONSONANT),
   (['w'], CONSONANT),
   (['x'], CONSONANT),
   (['y'], CONSONANT),
   (['z'], CONSONANT)]

/-- `elem[0].upper() + elem[1:]` (line 286). -/
def capFirst : List Char → List Char
  | [] => []
  | c :: rest => c.toUpper :: rest

/-- One entry of the phoneme output buffer `res`, tagged with its
provenance: a grammar element (text after possible capitalization,
together with the table tags), an inserted digit, or an inserted symbol.
The password string is the concatenation of the texts. -/
inductive Piece where
  | elem (text : List Char) (tags : Nat)
  | digit (ch : Char)
  | symbol (ch : Char)
deriving Repr, DecidableEq

/-- The characters a piece contributes to the password. -/
def Piece.text : Piece → List Char
  | .elem t _ => t
  | .digit ch => [ch]
  | .symbol ch => [ch]

/-- Whether a piece is a grammar element carrying the `NOT_FIRST` tag. -/
def pieceNF : Piece → Bool
  | .elem _ tags => decide (tags &&& NOT_FIRST ≠ 0)
  | _ => false

/-- Whether a piece is an inserted digit. -/
def pieceIsDigit : Piece → Bool
  | .digit _ => true
  | _ => false

/-- The password characters accumulated in a buffer. -/
def pieceChars (res : List Piece) : List Char := (res.map Piece.text).flatten

/-- The state of one `pw_phonemes` construction attempt: the buffer, the
remaining feature flags, the character count `c`, the previous element's
tags `prev`, the expected next kind `should_be` (`VOWEL` or `CONSONANT`),
the syllable-start flag `first`, and the stream position. -/
structure PhState where
  res : List Piece
  ff : FFlags
  c : Nat
  prev : Nat
  shouldBe : Nat
  first : Bool
  pos : Nat
deriving Repr, DecidableEq

/-- The digit draw of lines 299-301: `str(pw_number_fn(10))`, redrawn
while the digit is ambiguous and `PW_AMBIGUOUS` is set. -/
def drawDigit (s : Nat → Nat) (amb : Bool) : Nat → Nat → Option (Char × Nat)
  | 0, _ => none
  | fuel + 1, pos =>
    let ch := pw_digits.getD (s pos % 10) '0'
    if amb = true ∧ ch ∈ pw_ambiguous then drawDigit s amb fuel (pos + 1)
    else some (ch, pos + 1)

/-- The symbol draw of lines 312-314: `pw_symbols[pw_number_fn(len(pw_symbols))]`,
redrawn while ambiguous and `PW_AMBIGUOUS` is set. -/
def drawSymbol (s : Nat → Nat) (amb : Bool) : Nat → Nat → Option (Char × Nat)
  | 0, _ => none
  | fuel + 1, pos =>
    let ch := pw_symbols.getD (s pos % pw_symbols.length) '!'
    if amb = true ∧ ch ∈ pw_ambiguous then drawSymbol s amb fuel (pos + 1)
    else some (ch, pos + 1)

/-- Lines 310-326: the optional symbol insertion (guarded by `PW_SYMBOLS`,
`not first` and a `next_index(10) < 2` coin), the `should_be` advance and
the `prev`/`first` update that close a non-digit iteration of the inner
loop.  `flags` are the tags of the element just appended, `prev0`, `sb0`
and `first0` the values the iteration started with. -/
def phonemeTail (s : Nat → Nat) (pf : PwFlags) (fuel : Nat) (res1 : List Piece) (c1 : Nat)
    (ff1 : FFlags) (flags : Nat) (prev0 : Nat) (sb0 : Nat) (first0 : Bool) (pos : Nat) :
    Option PhState :=
  let symStep : Option (List Piece × Nat × FFlags × Nat) :=
    if pf.symbols = true ∧ first0 = false then
      if s pos % 10 < 2 then
        match drawSymbol s pf.ambiguous fuel (pos + 1) with
        | none => none
        | some (ch, pos2) =>
          some (res1 ++ [Piece.symbol ch], c1 + 1, { ff1 with symbols := false }, pos2)
      else some (res1, c1, ff1, pos + 1)
    else some (res1, c1, ff1, pos)
  match symStep with
  | none => none
  | some (res2, c2, ff2, pos2) =>
    let adv : Nat × Nat :=
      if sb0 = CONSONANT then (VOWEL, pos2)
      else if prev0 &&& VOWEL ≠ 0 ∨ flags &&& DIPTHONG ≠ 0 then (CONSONANT, pos2)
      else if s pos2 % 10 > 3 then (CONSONANT, pos2 + 1)
      else (VOWEL, pos2 + 1)
    some ⟨res2, ff2, c2, flags, adv.1, false, adv.2⟩

/-- Lines 288-326, the part of an inner-loop iteration that follows the
capitalization step, starting from the element text `txt` (capitalized or
not), the feature flags `ff1` (the pending-uppercase bit possibly already
cleared by the capitalization) and the stream position `pos2`: the
ambiguous rejection, the element append, the `c >= size` break, the digit
insertion (which resets the syllable state and skips the rest of the
iteration) and the fall-through to `phonemeTail`. -/
def phonemeAfterUpper (s : Nat → Nat) (size : Int) (pf : PwFlags) (fuel : Nat)
    (st : PhState) (flags : Nat) (txt : List Char) (ff1 : FFlags) (pos2 : Nat) :
    Option PhState :=
  if pf.ambiguous = true ∧ ∃ ch ∈ txt, ch ∈ pw_ambiguous then
    some { st with ff := ff1, pos := pos2 }
  else
    let res1 := st.res ++ [Piece.elem txt flags]
    let c1 := st.c + txt.length
    if (c1 : Int) ≥ size then some { st with res := res1, c := c1, ff := ff1, pos := pos2 }
    else if pf.digits = true ∧ st.first = false then
      if s pos2 % 10 < 3 then
        match drawDigit s pf.ambiguous fuel (pos2 + 1) with
        | none => none
        | some (ch, pos3) =>
          some ⟨res1 ++ [Piece.digit ch], { ff1 with digits := false }, c1 + 1, 0,
            (if s pos3 % 2 ≠ 0 then VOWEL else CONSONANT), true, pos3 + 1⟩
      else phonemeTail s pf fuel res1 c1 ff1 flags st.prev st.shouldBe st.first (pos2 + 1)
    else phonemeTail s pf fuel res1 c1 ff1 flags st.prev st.shouldBe st.first pos2

/-- One iteration of the inner `while c < size` loop of `pw_phonemes`
(lines 269-326): draw an element, reject it (`continue`) on a grammar or
length violation, optionally capitalize it (lines 284-287: guarded by
`pw_flags & PW_UPPERS`, `first or CONSONANT` and a `next_index(10) < 2`
coin, clearing the pending-uppercase feature bit), then continue with
`phonemeAfterUpper`. -/
def phonemeIter (s : Nat → Nat) (size : Int) (pf : PwFlags) (fuel : Nat) (st : PhState) :
    Option PhState :=
  let e := elements.getD (s st.pos % elements.length) (['a'], VOWEL)
  let flags := e.2
  let pos1 := st.pos + 1
  if flags &&& st.shouldBe = 0 then some { st with pos := pos1 }
  else if st.first = true ∧ flags &&& NOT_FIRST ≠ 0 then some { st with pos := pos1 }
  else if st.prev &&& VOWEL ≠ 0 ∧ flags &&& VOWEL ≠ 0 ∧ flags &&& DIPTHONG ≠ 0 then
    some { st with pos := pos1 }
  else if ((e.1.length + st.c : Nat) : Int) > size then some { st with pos := pos1 }
  else if pf.uppers = true ∧ (st.first = true ∨ flags &&& CONSONANT ≠ 0) then
    if s pos1 % 10 < 2 then
      phonemeAfterUpper s size pf fuel st flags (capFirst e.1)
        { st.ff with uppers := false } (pos1 + 1)
    else phonemeAfterUpper s size pf fuel st flags e.1 st.ff (pos1 + 1)
  else phonemeAfterUpper s size pf fuel st flags e.1 st.ff pos1

/-- The inner `while c < size` loop of one attempt, fueled. -/
def phonemeLoop (s : Nat → Nat) (size : Int) (pf : PwFlags) :
    Nat → PhState → Option PhState
  | 0, _ => none
  | fuel + 1, st =>
    if (st.c : Int) < size then
      match phonemeIter s size pf fuel st with
      | none => none
      | some st2 => phonemeLoop s size pf fuel st2
    else some st

/-- The outer retry loop of `pw_phonemes` (lines 261-328): each attempt
resets the buffer and flags, rolls the initial `should_be` via
`next_index(2)`, runs the inner loop, and accepts the buffer when every
required class was seen.  Returns the piece trace and the final stream
position. -/
def pw_phonemes_run (s : Nat → Nat) (size : Int) (pf : PwFlags) :
    Nat → Nat → Option (List Piece × Nat)
  | 0, _ => none
  | fuel + 1, pos =>
    let sb := if s pos % 2 ≠ 0 then VOWEL else CONSONANT
    let st0 : PhState := ⟨[], ⟨pf.digits, pf.uppers, pf.symbols⟩, 0, 0, sb, true, pos + 1⟩
    match phonemeLoop s size pf fuel st0 with
    | none => none
    | some st =>
      if st.ff = allClear then some (st.res, st.pos)
      else pw_phonemes_run s size pf fuel st.pos

/-- `pw_phonemes` (lines 259-328).  The `remove` parameter is part of the
source signature but is never read by the function body. -/
def pw_phonemes (size : Int) (pf : PwFlags) (remove : List Char) (s : Nat → Nat)
    (fuel : Nat) : Option String :=
  (pw_phonemes_run s size pf fuel 0).map (fun r => String.mk (pieceChars r.1))

/-- Projection of an attempt state that drops the pending feature flags:
buffer, character count, previous tags, expected kind, syllable-start flag
and stream position. -/
def PhState.noFlags (st : PhState) : List Piece × Nat × Nat × Nat × Bool × Nat :=
  (st.res, st.c, st.prev, st.shouldBe, st.first, st.pos)

/-- The `NOT_FIRST` placement discipline between adjacent buffer pieces:
a `NOT_FIRST` element never directly follows an inserted digit. -/
def nfRel : Piece → Piece → Prop :=
  fun a b => pieceNF b = true → pieceIsDigit a = false

/-- The invariant each construction attempt of `pw_phonemes` maintains:
`c` counts the accumulated characters, the count never exceeds the target,
ambiguous characters never enter the buffer when `PW_AMBIGUOUS` is set,
digit/symbol pieces hold digit/symbol characters, a cleared feature bit is
justified by a piece in the buffer (for the uppercase bit only in the
non-ambiguous configurations, because the capitalization step may clear
the bit on an element that the ambiguous check subsequently rejects), a
`NOT_FIRST` element never sits first nor directly after a digit piece, and
when `first` is off the buffer is non-empty and does not end in a digit. -/
structure PhInv (size : Int) (pf : PwFlags) (st : PhState) : Prop where
  len_eq : (pieceChars st.res).length = st.c
  le_size : (st.c : Int) ≤ size ∨ st.c = 0
  amb : pf.ambiguous = true → ∀ ch ∈ pieceChars st.res, ch ∉ pw_ambiguous
  digc : ∀ p ∈ st.res, ∀ ch : Char, p = Piece.digit ch → ch ∈ pw_digits
  symc : ∀ p ∈ st.res, ∀ ch : Char, p = Piece.symbol ch → ch ∈ pw_symbols
  digf : pf.digits = true → st.ff.digits = false → ∃ ch, Piece.digit ch ∈ st.res
  symf : pf.symbols = true → st.ff.symbols = false → ∃ ch, Piece.symbol ch ∈ st.res
  uppf : pf.uppers = true → pf.ambiguous = false → st.ff.uppers = false →
      ∃ ch ∈ pieceChars st.res, ch ∈ pw_uppers
  nf_head : ∀ p, st.res.head? = some p → pieceNF p = false
  nf_chain : List.Chain' nfRel st.res
  first_ok : st.first = false → st.res ≠ [] ∧
      ∀ q, st.res.getLast? = some q → pieceIsDigit q = false

/-! ## Lemmas about `pw_rand` -/

theorem mk_toList (l : List Char) : (String.mk l).toList = l := rfl

theorem mk_length (l : List Char) : (String.mk l).length = l.length := rfl

theorem getD_mod_mem {α : Type} (l : List α) (h : l ≠ []) (k : Nat) (d : α) :
    l.getD (k % l.length) d ∈ l := by
  have hl : 0 < l.length := List.length_pos.mpr h
  have hk : k % l.length < l.length := Nat.mod_lt _ hl
  rw [List.getD_eq_getElem l d hk]
  exact List.getElem_mem hk

theorem clearFlags_spec (ff : FFlags) (ch : Char) :
    ((clearFlags ff ch).digits = false → ff.digits = false ∨ ch ∈ pw_digits) ∧
    ((clearFlags ff ch).uppers = false → ff.uppers = false ∨ ch ∈ pw_uppers) ∧
    ((clearFlags ff ch).symbols = false → ff.symbols = false ∨ ch ∈ pw_symbols) := by
  simp only [clearFlags]
  split_ifs <;> simp_all

theorem clearFlags_allClear (ch : Char) : clearFlags allClear ch = allClear := by
  simp [clearFlags, allClear]

theorem pw_rand_fill_spec (s : Nat → Nat) (chars : List Char) (flags : PwFlags) (size : Int)
    (hch : chars ≠ []) :
    ∀ (fuel : Nat) (res : List Char) (ff : FFlags) (pos : Nat)
      (res2 : List Char) (ff2 : FFlags) (pos2 : Nat),
      pw_rand_fill s chars flags size fuel res ff pos = some (res2, ff2, pos2) →
      ¬ ((res2.length : Int) < size) ∧
      (∀ x ∈ res, x ∈ res2) ∧
      ((res2.length : Int) ≤ size ∨ res2 = res) ∧
      (∀ ch ∈ res2, ch ∈ res ∨ (ch ∈ chars ∧
        (flags.ambiguous = true → ch ∉ pw_ambiguous) ∧
        (flags.noVowels = true → ch ∉ pw_vowels))) ∧
      (ff2.digits = false → ff.digits = false ∨ ∃ ch ∈ res2, ch ∈ pw_digits) ∧
      (ff2.uppers = false → ff.uppers = false ∨ ∃ ch ∈ res2, ch ∈ pw_uppers) ∧
      (ff2.symbols = false → ff.symbols = false ∨ ∃ ch ∈ res2, ch ∈ pw_symbols) := by
  intro fuel
  induction fuel with
  | zero =>
    intro res ff pos res2 ff2 pos2 h
    rw [pw_rand_fill] at h
    split at h
    · exact absurd h (by simp)
    · simp only [Option.some.injEq, Prod.mk.injEq] at h
      obtain ⟨h1, h2, h3⟩ := h
      subst h1; subst h2
      refine ⟨by assumption, fun x hx => hx, Or.inr rfl, fun ch hc => Or.inl hc, ?_, ?_, ?_⟩ <;>
        exact fun hf => Or.inl hf
  | succ n ih =>
    intro res ff pos res2 ff2 pos2 h
    rw [pw_rand_fill] at h
    split at h
    case isFalse hge =>
      simp only [Option.some.injEq, Prod.mk.injEq] at h
      obtain ⟨h1, h2, h3⟩ := h
      subst h1; subst h2
      refine ⟨hge, fun x hx => hx, Or.inr rfl, fun ch hc => Or.inl hc, ?_, ?_, ?_⟩ <;>
        exact fun hf => Or.inl hf
    case isTrue hlt =>
      simp only [] at h
      split at h
      · -- ambiguous skip
        exact ih res ff (pos + 1) res2 ff2 pos2 h
      · split at h
        · -- vowel skip
          exact ih res ff (pos + 1) res2 ff2 pos2 h
        · -- append branch
          set ch := chars.getD (s pos % chars.length) 'a' with hchdef
          have hmem : ch ∈ chars := getD_mod_mem chars hch (s pos) 'a'
          obtain ⟨e1, e2, e3, e4, e5, e6, e7⟩ :=
            ih (res ++ [ch]) (clearFlags ff ch) (pos + 1) res2 ff2 pos2 h
          have hsub : ∀ x ∈ res, x ∈ res2 := by
            intro x hx
            exact e2 x (List.mem_append_left _ hx)
          have hchin : ch ∈ res2 := e2 ch (List.mem_append_right _ (List.mem_singleton.mpr rfl))
          refine ⟨e1, hsub, ?_, ?_, ?_, ?_, ?_⟩
          · left
            rcases e3 with h3 | h3
            · exact h3
            · rw [h3]
              simp only [List.length_append, List.length_singleton]
              push_cast
              omega
          · intro c hc
            rcases e4 c hc with hc2 | hc2
            · rcases List.mem_append.mp hc2 with hc3 | hc3
              · exact Or.inl hc3
              · right
                have hcch : c = ch := List.mem_singleton.mp hc3
                subst hcch
                constructor
                · exact hmem
                constructor
                · rename_i hamb hvow
                  intro hfl
                  intro hmem2
                  exact hamb ⟨hfl, hmem2⟩
                · rename_i hamb hvow
                  intro hfl
                  intro hmem2
                  exact hvow ⟨hfl, hmem2⟩
            · exact Or.inr hc2
          · intro hf
            rcases e5 hf with h5 | h5
            · rcases (clearFlags_spec ff ch).1 h5 with h6 | h6
              · exact Or.inl h6
              · exact Or.inr ⟨ch, hchin, h6⟩
            · exact Or.inr h5
          · intro hf
            rcases e6 hf with h5 | h5
            · rcases (clearFlags_spec ff ch).2.1 h5 with h6 | h6
              · exact Or.inl h6
              · exact Or.inr ⟨ch, hchin, h6⟩
            · exact Or.inr h5
          · intro hf
            rcases e7 hf with h5 | h5
            · rcases (clearFlags_spec ff ch).2.2 h5 with h6 | h6
              · exact Or.inl h6
              · exact Or.inr ⟨ch, hchin, h6⟩
            · exact Or.inr h5

theorem pw_rand_fill_allClear (s : Nat → Nat) (chars : List Char) (flags : PwFlags)
    (size : Int) :
    ∀ (fuel : Nat) (res : List Char) (pos : Nat) (res2 : List Char) (ff2 : FFlags) (pos2 : Nat),
      pw_rand_fill s chars flags size fuel res allClear pos = some (res2, ff2, pos2) →
      ff2 = allClear := by
  intro fuel
  induction fuel with
  | zero =>
    intro res pos res2 ff2 pos2 h
    rw [pw_rand_fill] at h
    split at h
    · exact absurd h (by simp)
    · simp only [Option.some.injEq, Prod.mk.injEq] at h
      exact h.2.1.symm
  | succ n ih =>
    intro res pos res2 ff2 pos2 h
    rw [pw_rand_fill] at h
    split at h
    case isFalse hge =>
      simp only [Option.some.injEq, Prod.mk.injEq] at h
      exact h.2.1.symm
    case isTrue hlt =>
      simp only [] at h
      split at h
      · exact ih res (pos + 1) res2 ff2 pos2 h
      · split at h
        · exact ih res (pos + 1) res2 ff2 pos2 h
        · rw [clearFlags_allClear] at h
          exact ih _ (pos + 1) res2 ff2 pos2 h

theorem pw_rand_loop_spec (s : Nat → Nat) (chars : List Char) (flags : PwFlags) (size : Int)
    (hch : chars ≠ []) :
    ∀ (fuel pos : Nat) (pw : String) (pos2 : Nat),
      pw_rand_loop s chars flags size fuel pos = some (pw, pos2) →
      ∃ res : List Char, pw = String.mk res ∧
        ¬ ((res.length : Int) < size) ∧ ((res.length : Int) ≤ size ∨ res = []) ∧
        (∀ ch ∈ res, ch ∈ chars ∧
          (flags.ambiguous = true → ch ∉ pw_ambiguous) ∧
          (flags.noVowels = true → ch ∉ pw_vowels)) ∧
        (2 < size →
          (flags.digits = true → ∃ ch ∈ res, ch ∈ pw_digits) ∧
          (flags.uppers = true → ∃ ch ∈ res, ch ∈ pw_uppers) ∧
          (flags.symbols = true → ∃ ch ∈ res, ch ∈ pw_symbols)) := by
  intro fuel
  induction fuel with
  | zero =>
    intro pos pw pos2 h
    exact absurd h (by rw [pw_rand_loop]; simp)
  | succ n ih =>
    intro pos pw pos2 h
    rw [pw_rand_loop] at h
    rcases hf : pw_rand_fill s chars flags size n []
        (if 2 < size then FFlags.mk flags.digits flags.uppers flags.symbols else allClear)
        pos with _ | ⟨res, ff, p2⟩ <;> rw [hf] at h
    · exact absurd h (by simp)
    · simp only [] at h
      split at h
      case isTrue hac =>
        simp only [Option.some.injEq, Prod.mk.injEq] at h
        obtain ⟨h1, h2⟩ := h
        obtain ⟨e1, _, e3, e4, e5, e6, e7⟩ :=
          pw_rand_fill_spec s chars flags size hch n [] _ pos res ff p2 hf
        refine ⟨res, h1.symm, e1, ?_, ?_, ?_⟩
        · rcases e3 with h3 | h3
          · exact Or.inl h3
          · exact Or.inr h3
        · intro ch hc
          rcases e4 ch hc with hc2 | hc2
          · exact absurd hc2 (List.not_mem_nil ch)
          · exact hc2
        · intro hsz
          rw [if_pos hsz] at e5 e6 e7
          subst hac
          refine ⟨?_, ?_, ?_⟩
          · intro hfl
            rcases e5 rfl with h5 | h5
            · simp only [hfl] at h5
              exact absurd h5 (by simp)
            · exact h5
          · intro hfl
            rcases e6 rfl with h5 | h5
            · simp only [hfl] at h5
              exact absurd h5 (by simp)
            · exact h5
          · intro hfl
            rcases e7 rfl with h5 | h5
            · simp only [hfl] at h5
              exact absurd h5 (by simp)
            · exact h5
      case isFalse =>
        exact ih p2 pw pos2 h

theorem pw_valid_chars_ne_nil (flags : PwFlags) (remove : List Char)
    (hck : pw_check flags remove = none) : pw_valid_chars flags remove ≠ [] := by
  by_cases hrem : remove = []
  · simp only [pw_valid_chars, if_pos hrem]
    simp [buildChars, pw_lowers]
  · simp only [pw_check, if_neg hrem] at hck
    split_ifs at hck with h1 h2 h3 h4
    exact h4

theorem pw_rand_ok_spec (size : Int) (flags : PwFlags) (remove : List Char) (s : Nat → Nat)
    (fuel : Nat) (pw : String) (pos2 : Nat)
    (h : pw_rand size flags remove s fuel = .ok pw pos2) :
    pw_check flags remove = none ∧
    ∃ res : List Char, pw = String.mk res ∧
      ¬ ((res.length : Int) < size) ∧ ((res.length : Int) ≤ size ∨ res = []) ∧
      (∀ ch ∈ res, ch ∈ pw_valid_chars flags remove ∧
        (flags.ambiguous = true → ch ∉ pw_ambiguous) ∧
        (flags.noVowels = true → ch ∉ pw_vowels)) ∧
      (2 < size →
        (flags.digits = true → ∃ ch ∈ res, ch ∈ pw_digits) ∧
        (flags.uppers = true → ∃ ch ∈ res, ch ∈ pw_uppers) ∧
        (flags.symbols = true → ∃ ch ∈ res, ch ∈ pw_symbols)) := by
  rw [pw_rand] at h
  rcases hck : pw_check flags remove with _ | e <;> rw [hck] at h
  · rcases hl : pw_rand_loop s (pw_valid_chars flags remove) flags size fuel 0
        with _ | ⟨pw3, p3⟩ <;> rw [hl] at h
    · exact absurd h (by simp)
    · simp only [PwResult.ok.injEq] at h
      obtain ⟨h1, h2⟩ := h
      subst h1
      exact ⟨rfl,
        pw_rand_loop_spec s _ flags size (pw_valid_chars_ne_nil flags remove hck)
          fuel 0 pw3 p3 hl⟩
  · exact absurd h (by simp)

theorem pw_valid_chars_eq_eligible (flags : PwFlags) (remove : List Char)
    (hrem : remove ≠ []) : pw_valid_chars flags remove = eligibleAlphabet flags remove := by
  simp [pw_valid_chars, if_neg hrem, eligibleAlphabet]

theorem not_mem_extendRemove_nil (flags : PwFlags) (ch : Char)
    (hamb : ch ∉ pw_ambiguous) (hvow : ch ∉ pw_vowels) :
    ch ∉ extendRemove flags [] := by
  cases ha : flags.ambiguous <;> cases hv : flags.noVowels <;>
    simp [extendRemove, ha, hv, hamb, hvow]

theorem mem_eligible_nil (flags : PwFlags) (ch : Char) (hb : ch ∈ buildChars flags)
    (hamb : ch ∉ pw_ambiguous) (hvow : ch ∉ pw_vowels) :
    ch ∈ eligibleAlphabet flags [] := by
  simp only [eligibleAlphabet, List.mem_filter, decide_eq_true_eq]
  exact ⟨hb, not_mem_extendRemove_nil flags ch hamb hvow⟩

/-- With an empty user removal list the exclusion set (ambiguous and/or
vowel characters only) can never exhaust a required class, nor the
alphabet: hence a configuration that does exhaust one has `remove ≠ []`. -/
theorem remove_ne_nil_of_exhausted (flags : PwFlags) (remove : List Char)
    (H : (flags.digits = true ∧ ∀ ch ∈ eligibleAlphabet flags remove, ch ∉ pw_digits) ∨
         (flags.uppers = true ∧ ∀ ch ∈ eligibleAlphabet flags remove, ch ∉ pw_uppers) ∨
         (flags.symbols = true ∧ ∀ ch ∈ eligibleAlphabet flags remove, ch ∉ pw_symbols) ∨
         eligibleAlphabet flags remove = []) : remove ≠ [] := by
  intro hr
  subst hr
  rcases H with ⟨hd, hall⟩ | ⟨hu, hall⟩ | ⟨hy, hall⟩ | hemp
  · have h3 : '3' ∈ eligibleAlphabet flags [] := by
      refine mem_eligible_nil flags '3' ?_ (by decide) (by decide)
      simp [buildChars, hd, pw_digits]
    exact hall '3' h3 (by decide)
  · have h3 : 'C' ∈ eligibleAlphabet flags [] := by
      refine mem_eligible_nil flags 'C' ?_ (by decide) (by decide)
      simp [buildChars, hu, pw_uppers]
    exact hall 'C' h3 (by decide)
  · have h3 : '#' ∈ eligibleAlphabet flags [] := by
      refine mem_eligible_nil flags '#' ?_ (by decide) (by decide)
      simp [buildChars, hy, pw_symbols]
    exact hall '#' h3 (by decide)
  · have h3 : 'c' ∈ eligibleAlphabet flags [] := by
      refine mem_eligible_nil flags 'c' ?_ (by decide) (by decide)
      simp [buildChars, pw_lowers]
    rw [hemp] at h3
    exact absurd h3 (List.not_mem_nil _)

/-- When a required class (or the whole alphabet) is exhausted by the
exclusion set, the fail-fast checks of `pw_rand` fire. -/
theorem pw_check_isSome_of_exhausted (flags : PwFlags) (remove : List Char)
    (H : (flags.digits = true ∧ ∀ ch ∈ eligibleAlphabet flags remove, ch ∉ pw_digits) ∨
         (flags.uppers = true ∧ ∀ ch ∈ eligibleAlphabet flags remove, ch ∉ pw_uppers) ∨
         (flags.symbols = true ∧ ∀ ch ∈ eligibleAlphabet flags remove, ch ∉ pw_symbols) ∨
         eligibleAlphabet flags remove = []) :
    ∃ e, pw_check flags remove = some e := by
  have hrem : remove ≠ [] := remove_ne_nil_of_exhausted flags remove H
  have hve : pw_valid_chars flags remove = eligibleAlphabet flags remove :=
    pw_valid_chars_eq_eligible flags remove hrem
  simp only [pw_check, if_neg hrem, hve]
  split_ifs with h1 h2 h3 h4
  · exact ⟨_, rfl⟩
  · exact ⟨_, rfl⟩
  · exact ⟨_, rfl⟩
  · exact ⟨_, rfl⟩
  · exfalso
    rcases H with ⟨hd, hall⟩ | ⟨hu, hall⟩ | ⟨hy, hall⟩ | hemp
    · exact h1 ⟨hd, by simp only [List.all_eq_true, decide_eq_true_eq]; exact hall⟩
    · exact h2 ⟨hu, by simp only [List.all_eq_true, decide_eq_true_eq]; exact hall⟩
    · exact h3 ⟨hy, by simp only [List.all_eq_true, decide_eq_true_eq]; exact hall⟩
    · exact h4 hemp

/-! ## Lemmas about `pw_phonemes` -/

theorem pieceChars_append (l : List Piece) (p : Piece) :
    pieceChars (l ++ [p]) = pieceChars l ++ p.text := by
  simp [pieceChars]

theorem mem_pieceChars_of_mem {res : List Piece} {p : Piece} {ch : Char}
    (hp : p ∈ res) (hc : ch ∈ p.text) : ch ∈ pieceChars res :=
  List.mem_flatten.mpr ⟨p.text, List.mem_map.mpr ⟨p, hp, rfl⟩, hc⟩

theorem capFirst_length (t : List Char) : (capFirst t).length = t.length := by
  cases t <;> simp [capFirst]

theorem elements_cap_upper : ∀ e ∈ elements, ∃ ch ∈ capFirst e.1, ch ∈ pw_uppers := by
  decide

theorem elements_ne_nil : elements ≠ [] := by decide

theorem drawDigit_spec (s : Nat → Nat) (amb : Bool) :
    ∀ (fuel pos : Nat) (ch : Char) (pos2 : Nat),
      drawDigit s amb fuel pos = some (ch, pos2) →
      ch ∈ pw_digits ∧ (amb = true → ch ∉ pw_ambiguous) := by
  intro fuel
  induction fuel with
  | zero =>
    intro pos ch pos2 h
    exact absurd h (by rw [drawDigit]; simp)
  | succ n ih =>
    intro pos ch pos2 h
    rw [drawDigit] at h
    split at h
    · exact ih _ _ _ h
    · rename_i hcond
      simp only [Option.some.injEq, Prod.mk.injEq] at h
      obtain ⟨h1, _⟩ := h
      subst h1
      refine ⟨?_, fun ha hm => hcond ⟨ha, hm⟩⟩
      have h10 : (10 : Nat) = pw_digits.length := by decide
      rw [h10]
      exact getD_mod_mem pw_digits (by decide) (s pos) '0'

theorem drawSymbol_spec (s : Nat → Nat) (amb : Bool) :
    ∀ (fuel pos : Nat) (ch : Char) (pos2 : Nat),
      drawSymbol s amb fuel pos = some (ch, pos2) →
      ch ∈ pw_symbols ∧ (amb = true → ch ∉ pw_ambiguous) := by
  intro fuel
  induction fuel with
  | zero =>
    intro pos ch pos2 h
    exact absurd h (by rw [drawSymbol]; simp)
  | succ n ih =>
    intro pos ch pos2 h
    rw [drawSymbol] at h
    split at h
    · exact ih _ _ _ h
    · rename_i hcond
      simp only [Option.some.injEq, Prod.mk.injEq] at h
      obtain ⟨h1, _⟩ := h
      subst h1
      exact ⟨getD_mod_mem pw_symbols (by decide) (s pos) '!',
        fun ha hm => hcond ⟨ha, hm⟩⟩

theorem PhInv.init (size : Int) (pf : PwFlags) (sb : Nat) (pos : Nat) :
    PhInv size pf ⟨[], ⟨pf.digits, pf.uppers, pf.symbols⟩, 0, 0, sb, true, pos⟩ := by
  constructor
  · simp [pieceChars]
  · exact Or.inr rfl
  · simp [pieceChars]
  · simp
  · simp
  · intro hpf hff
    simp only at hff
    simp [hpf] at hff
  · intro hpf hff
    simp only at hff
    simp [hpf] at hff
  · intro hpf _ hff
    simp only at hff
    simp [hpf] at hff
  · simp
  · simp
  · simp

theorem PhInv.samePieces {size : Int} {pf : PwFlags} {st : PhState}
    (h : PhInv size pf st) (pos2 : Nat) : PhInv size pf { st with pos := pos2 } :=
  ⟨h.len_eq, h.le_size, h.amb, h.digc, h.symc, h.digf, h.symf, h.uppf, h.nf_head,
    h.nf_chain, h.first_ok⟩

theorem PhInv.ambContinue {size : Int} {pf : PwFlags} {st : PhState}
    (h : PhInv size pf st) (ff2 : FFlags) (pos2 : Nat) (hamb : pf.ambiguous = true)
    (hd : ff2.digits = st.ff.digits) (hs : ff2.symbols = st.ff.symbols) :
    PhInv size pf { st with ff := ff2, pos := pos2 } := by
  refine ⟨h.len_eq, h.le_size, h.amb, h.digc, h.symc, ?_, ?_, ?_, h.nf_head,
    h.nf_chain, h.first_ok⟩
  · intro hpf hf
    exact h.digf hpf (hd ▸ hf)
  · intro hpf hf
    exact h.symf hpf (hs ▸ hf)
  · intro _ hna
    exact absurd hamb (by simp [hna])

theorem PhInv.append {size : Int} {pf : PwFlags} {st : PhState}
    (h : PhInv size pf st) (p : Piece) (ff2 : FFlags) (prev2 sb2 : Nat) (first2 : Bool)
    (pos2 : Nat)
    (hle : ((st.c + p.text.length : Nat) : Int) ≤ size)
    (hamb : pf.ambiguous = true → ∀ ch ∈ p.text, ch ∉ pw_ambiguous)
    (hdigc : ∀ ch : Char, p = Piece.digit ch → ch ∈ pw_digits)
    (hsymc : ∀ ch : Char, p = Piece.symbol ch → ch ∈ pw_symbols)
    (hdigf : ff2.digits = false → st.ff.digits = false ∨ ∃ ch, p = Piece.digit ch)
    (hsymf : ff2.symbols = false → st.ff.symbols = false ∨ ∃ ch, p = Piece.symbol ch)
    (huppf : pf.ambiguous = false → ff2.uppers = false →
        st.ff.uppers = false ∨ ∃ ch ∈ p.text, ch ∈ pw_uppers)
    (hnf : pieceNF p = true → st.first = false)
    (hfirst2 : first2 = false → pieceIsDigit p = false) :
    PhInv size pf ⟨st.res ++ [p], ff2, st.c + p.text.length, prev2, sb2, first2, pos2⟩ := by
  constructor
  · simp [pieceChars_append, h.len_eq]
  · exact Or.inl hle
  · intro ha ch hch
    rw [pieceChars_append] at hch
    rcases List.mem_append.mp hch with hc | hc
    · exact h.amb ha ch hc
    · exact hamb ha ch hc
  · intro q hq ch hdq
    rcases List.mem_append.mp hq with hq2 | hq2
    · exact h.digc q hq2 ch hdq
    · rw [List.mem_singleton.mp hq2] at hdq
      exact hdigc ch hdq
  · intro q hq ch hdq
    rcases List.mem_append.mp hq with hq2 | hq2
    · exact h.symc q hq2 ch hdq
    · rw [List.mem_singleton.mp hq2] at hdq
      exact hsymc ch hdq
  · intro hpf hf
    rcases hdigf hf with h2 | ⟨ch, h2⟩
    · obtain ⟨ch, hch⟩ := h.digf hpf h2
      exact ⟨ch, List.mem_append_left _ hch⟩
    · exact ⟨ch, by rw [← h2]; exact List.mem_append_right _ (List.mem_singleton.mpr rfl)⟩
  · intro hpf hf
    rcases hsymf hf with h2 | ⟨ch, h2⟩
    · obtain ⟨ch, hch⟩ := h.symf hpf h2
      exact ⟨ch, List.mem_append_left _ hch⟩
    · exact ⟨ch, by rw [← h2]; exact List.mem_append_right _ (List.mem_singleton.mpr rfl)⟩
  · intro hpf hna hf
    rcases huppf hna hf with h2 | ⟨ch, hch, hupp⟩
    · obtain ⟨ch, hch, hupp⟩ := h.uppf hpf hna h2
      exact ⟨ch, by rw [pieceChars_append]; exact List.mem_append_left _ hch, hupp⟩
    · exact ⟨ch, by rw [pieceChars_append]; exact List.mem_append_right _ hch, hupp⟩
  · intro q hq
    cases hres : st.res with
    | nil =>
      rw [hres] at hq
      simp only [List.nil_append, List.head?_cons, Option.some.injEq] at hq
      subst hq
      cases hnp : pieceNF p with
      | false => rfl
      | true => exact absurd hres (h.first_ok (hnf hnp)).1
    | cons r0 rrest =>
      rw [hres] at hq
      simp only [List.cons_append, List.head?_cons, Option.some.injEq] at hq
      subst hq
      exact h.nf_head r0 (by rw [hres]; rfl)
  · refine List.chain'_append.mpr ⟨h.nf_chain, List.chain'_singleton p, ?_⟩
    intro x hx y hy
    simp only [List.head?_cons, Option.mem_def, Option.some.injEq] at hy
    subst hy
    intro hnp
    have hfirst := hnf hnp
    exact (h.first_ok hfirst).2 x hx
  · intro hf2
    refine ⟨by simp, ?_⟩
    intro q hq
    rw [List.getLast?_concat] at hq
    obtain rfl := Option.some.inj hq
    exact hfirst2 hf2

theorem PhInv.retarget {size : Int} {pf : PwFlags} {st : PhState} (h : PhInv size pf st)
    (prev2 sb2 : Nat) (pos2 : Nat) (hne : st.res ≠ [])
    (hlast : ∀ q, st.res.getLast? = some q → pieceIsDigit q = false) :
    PhInv size pf ⟨st.res, st.ff, st.c, prev2, sb2, false, pos2⟩ :=
  ⟨h.len_eq, h.le_size, h.amb, h.digc, h.symc, h.digf, h.symf, h.uppf, h.nf_head,
    h.nf_chain, fun _ => ⟨hne, hlast⟩⟩

theorem phonemeTail_inv (s : Nat → Nat) (size : Int) (pf : PwFlags) (fuel : Nat)
    (res1 : List Piece) (c1 : Nat) (ff1 : FFlags) (flags prev0 sb0 : Nat) (first0 : Bool)
    (pos : Nat) (st2 : PhState)
    (hmid : ∀ (prev2 sb2 : Nat) (pos2 : Nat),
      PhInv size pf ⟨res1, ff1, c1, prev2, sb2, first0, pos2⟩)
    (hc1 : (c1 : Int) < size)
    (hne : res1 ≠ [])
    (hlast : ∀ q, res1.getLast? = some q → pieceIsDigit q = false)
    (ht : phonemeTail s pf fuel res1 c1 ff1 flags prev0 sb0 first0 pos = some st2) :
    PhInv size pf st2 := by
  simp only [phonemeTail] at ht
  by_cases hsym : pf.symbols = true ∧ first0 = false
  · rw [if_pos hsym] at ht
    by_cases hcoin : s pos % 10 < 2
    · rw [if_pos hcoin] at ht
      rcases hd : drawSymbol s pf.ambiguous fuel (pos + 1) with _ | ⟨ch, p2⟩ <;>
        rw [hd] at ht
      · exact absurd ht (by simp)
      · simp only [Option.some.injEq] at ht
        subst ht
        have hspec := drawSymbol_spec s pf.ambiguous fuel (pos + 1) ch p2 hd
        exact (hmid 0 0 0).append (Piece.symbol ch) _ _ _ false _
          (by simp only [Piece.text, List.length_singleton]; push_cast; omega)
          (by
            intro ha ch2 hch2
            rw [List.mem_singleton.mp hch2]
            exact hspec.2 ha)
          (by intro ch2 hq; exact absurd hq (by simp))
          (by
            intro ch2 hq
            injection hq with h2
            rw [← h2]
            exact hspec.1)
          (fun hf => Or.inl hf)
          (fun _ => Or.inr ⟨ch, rfl⟩)
          (fun _ hf => Or.inl hf)
          (by intro hp; exact absurd hp (by simp [pieceNF]))
          (fun _ => rfl)
    · rw [if_neg hcoin] at ht
      simp only [Option.some.injEq] at ht
      subst ht
      exact ((hmid 0 0 0).retarget _ _ _ hne hlast : PhInv size pf _)
  · rw [if_neg hsym] at ht
    simp only [Option.some.injEq] at ht
    subst ht
    exact ((hmid 0 0 0).retarget _ _ _ hne hlast : PhInv size pf _)

theorem phonemeAfterUpper_inv (s : Nat → Nat) (size : Int) (pf : PwFlags) (fuel : Nat)
    (st : PhState) (flags : Nat) (txt : List Char) (ff1 : FFlags) (pos2 : Nat)
    (st2 : PhState) (h : PhInv size pf st)
    (hlen : ((st.c + txt.length : Nat) : Int) ≤ size)
    (hupp : pf.ambiguous = false → ff1.uppers = false →
        st.ff.uppers = false ∨ ∃ ch ∈ txt, ch ∈ pw_uppers)
    (hdig : ff1.digits = st.ff.digits) (hsym : ff1.symbols = st.ff.symbols)
    (hnf : flags &&& NOT_FIRST ≠ 0 → st.first = false)
    (he : phonemeAfterUpper s size pf fuel st flags txt ff1 pos2 = some st2) :
    PhInv size pf st2 := by
  simp only [phonemeAfterUpper] at he
  split at he
  case isTrue hambr =>
    simp only [Option.some.injEq] at he
    subst he
    exact h.ambContinue ff1 pos2 hambr.1 hdig hsym
  case isFalse hambr =>
    have hambok : pf.ambiguous = true → ∀ ch ∈ txt, ch ∉ pw_ambiguous := by
      intro ha ch hch hmem
      exact hambr ⟨ha, ch, hch, hmem⟩
    have happ : ∀ (prev2 sb2 : Nat) (first2 : Bool) (ps : Nat),
        (first2 = false → pieceIsDigit (Piece.elem txt flags) = false) →
        PhInv size pf ⟨st.res ++ [Piece.elem txt flags], ff1, st.c + txt.length,
          prev2, sb2, first2, ps⟩ := by
      intro prev2 sb2 first2 ps hfirst2
      exact h.append (Piece.elem txt flags) ff1 prev2 sb2 first2 ps hlen hambok
        (by intro ch2 hq; exact absurd hq (by simp))
        (by intro ch2 hq; exact absurd hq (by simp))
        (fun hf => Or.inl (hdig ▸ hf))
        (fun hf => Or.inl (hsym ▸ hf))
        hupp
        (by
          intro hp
          simp only [pieceNF, decide_eq_true_eq] at hp
          exact hnf hp)
        hfirst2
    have hne1 : st.res ++ [Piece.elem txt flags] ≠ [] := by simp
    have hlast1 : ∀ q, (st.res ++ [Piece.elem txt flags]).getLast? = some q →
        pieceIsDigit q = false := by
      intro q hq
      rw [List.getLast?_concat] at hq
      obtain rfl := Option.some.inj hq
      rfl
    split at he
    case isTrue hbreak =>
      simp only [Option.some.injEq] at he
      subst he
      exact happ st.prev st.shouldBe st.first pos2 (fun _ => rfl)
    case isFalse hbreak =>
      split at he
      case isTrue hdcond =>
        split at he
        case isTrue hcoin =>
          rcases hd : drawDigit s pf.ambiguous fuel (pos2 + 1) with _ | ⟨ch, pos3⟩ <;>
            rw [hd] at he
          · exact absurd he (by simp)
          · simp only [Option.some.injEq] at he
            subst he
            have hspec := drawDigit_spec s pf.ambiguous fuel (pos2 + 1) ch pos3 hd
            exact (happ 0 0 false 0 (fun _ => rfl)).append (Piece.digit ch) _ _ _ true _
              (by
                simp only [Piece.text, List.length_singleton]
                push_cast at hbreak ⊢
                omega)
              (by
                intro ha ch2 hch2
                rw [List.mem_singleton.mp hch2]
                exact hspec.2 ha)
              (by
                intro ch2 hq
                injection hq with h2
                rw [← h2]
                exact hspec.1)
              (by intro ch2 hq; exact absurd hq (by simp))
              (fun _ => Or.inr ⟨ch, rfl⟩)
              (fun hf => Or.inl hf)
              (fun _ hf => Or.inl hf)
              (by intro hp; exact absurd hp (by simp [pieceNF]))
              (fun hq => absurd hq (by simp))
        case isFalse hcoin =>
          refine phonemeTail_inv s size pf fuel _ _ ff1 flags st.prev st.shouldBe st.first
            _ st2 ?_ ?_ hne1 hlast1 he
          · intro prev2 sb2 p2
            exact happ prev2 sb2 st.first p2 (fun _ => rfl)
          · push_cast at hbreak ⊢
            omega
      case isFalse hdcond =>
        refine phonemeTail_inv s size pf fuel _ _ ff1 flags st.prev st.shouldBe st.first
          _ st2 ?_ ?_ hne1 hlast1 he
        · intro prev2 sb2 p2
          exact happ prev2 sb2 st.first p2 (fun _ => rfl)
        · push_cast at hbreak ⊢
          omega

theorem phonemeIter_inv (s : Nat → Nat) (size : Int) (pf : PwFlags) (fuel : Nat)
    (st st2 : PhState) (h : PhInv size pf st)
    (hit : phonemeIter s size pf fuel st = some st2) : PhInv size pf st2 := by
  simp only [phonemeIter] at hit
  split at hit
  · simp only [Option.some.injEq] at hit
    subst hit
    exact h.samePieces _
  · split at hit
    · simp only [Option.some.injEq] at hit
      subst hit
      exact h.samePieces _
    · split at hit
      · simp only [Option.some.injEq] at hit
        subst hit
        exact h.samePieces _
      · split at hit
        case isTrue =>
          simp only [Option.some.injEq] at hit
          subst hit
          exact h.samePieces _
        case isFalse hgt =>
          rename_i hsb hnfguard hvow
          have hnf2 : (elements.getD (s st.pos % elements.length) (['a'], VOWEL)).2 &&&
              NOT_FIRST ≠ 0 → st.first = false := by
            intro hfl
            cases hfst : st.first with
            | false => rfl
            | true => exact absurd ⟨hfst, hfl⟩ hnfguard
          have hlen0 : ((st.c +
              (elements.getD (s st.pos % elements.length) (['a'], VOWEL)).1.length : Nat) :
              Int) ≤ size := by
            push_cast at hgt ⊢
            omega
          split at hit
          case isTrue hup =>
            split at hit
            case isTrue hcoin =>
              refine phonemeAfterUpper_inv s size pf fuel st _
                (capFirst (elements.getD (s st.pos % elements.length) (['a'], VOWEL)).1)
                { st.ff with uppers := false } _ st2 h ?_ ?_ rfl rfl hnf2 hit
              · rw [capFirst_length]
                exact hlen0
              · intro _ _
                right
                exact elements_cap_upper _
                  (getD_mod_mem elements elements_ne_nil (s st.pos) (['a'], VOWEL))
            case isFalse hcoin =>
              exact phonemeAfterUpper_inv s size pf fuel st _ _ _ _ st2 h hlen0
                (fun _ hf => Or.inl hf) rfl rfl hnf2 hit
          case isFalse hup =>
            exact phonemeAfterUpper_inv s size pf fuel st _ _ _ _ st2 h hlen0
              (fun _ hf => Or.inl hf) rfl rfl hnf2 hit

theorem phonemeLoop_inv (s : Nat → Nat) (size : Int) (pf : PwFlags) :
    ∀ (fuel : Nat) (st st2 : PhState), PhInv size pf st →
      phonemeLoop s size pf fuel st = some st2 →
      PhInv size pf st2 ∧ ¬ ((st2.c : Int) < size) := by
  intro fuel
  induction fuel with
  | zero =>
    intro st st2 h hl
    exact absurd hl (by rw [phonemeLoop]; simp)
  | succ n ih =>
    intro st st2 h hl
    rw [phonemeLoop] at hl
    split at hl
    case isTrue hlt =>
      rcases hi : phonemeIter s size pf n st with _ | st3 <;> rw [hi] at hl
      · exact absurd hl (by simp)
      · exact ih st3 st2 (phonemeIter_inv s size pf n st st3 h hi) hl
    case isFalse hge =>
      simp only [Option.some.injEq] at hl
      subst hl
      exact ⟨h, hge⟩

theorem pw_phonemes_run_spec (s : Nat → Nat) (size : Int) (pf : PwFlags) :
    ∀ (fuel pos : Nat) (res : List Piece) (pos2 : Nat),
      pw_phonemes_run s size pf fuel pos = some (res, pos2) →
      ∃ st : PhState, st.res = res ∧ PhInv size pf st ∧ ¬ ((st.c : Int) < size) ∧
        st.ff = allClear := by
  intro fuel
  induction fuel with
  | zero =>
    intro pos res pos2 h
    exact absurd h (by rw [pw_phonemes_run]; simp)
  | succ n ih =>
    intro pos res pos2 h
    simp only [pw_phonemes_run] at h
    rcases hl : phonemeLoop s size pf n ⟨[], ⟨pf.digits, pf.uppers, pf.symbols⟩, 0, 0,
        (if s pos % 2 ≠ 0 then VOWEL else CONSONANT), true, pos + 1⟩ with _ | st <;>
      rw [hl] at h
    · exact absurd h (by simp)
    · simp only [] at h
      split at h
      case isTrue hac =>
        simp only [Option.some.injEq, Prod.mk.injEq] at h
        obtain ⟨h1, _⟩ := h
        obtain ⟨hinv, hexit⟩ := phonemeLoop_inv s size pf n _ st
          (PhInv.init size pf _ (pos + 1)) hl
        exact ⟨st, h1, hinv, hexit, hac⟩
      case isFalse =>
        exact ih st.pos res pos2 h

/-- Every successfully returned `pw_phonemes` password is the character
sequence of a piece trace whose final attempt state satisfies the
invariant, filled the buffer, and cleared every required-class flag. -/
theorem pw_phonemes_some_spec (size : Int) (pf : PwFlags) (remove : List Char)
    (s : Nat → Nat) (fuel : Nat) (pw : String)
    (h : pw_phonemes size pf remove s fuel = some pw) :
    ∃ st : PhState, pw = String.mk (pieceChars st.res) ∧ PhInv size pf st ∧
      ¬ ((st.c : Int) < size) ∧ st.ff = allClear := by
  rw [pw_phonemes] at h
  rcases hr : pw_phonemes_run s size pf fuel 0 with _ | ⟨res, p2⟩ <;> rw [hr] at h
  · exact absurd h (by simp)
  · simp only [Option.map_some', Option.some.injEq] at h
    obtain ⟨st, hres, hinv, hexit, hac⟩ := pw_phonemes_run_spec s size pf fuel 0 res p2 hr
    exact ⟨st, by rw [← h, hres], hinv, hexit, hac⟩

theorem phonemeTail_ff (s : Nat → Nat) (pf : PwFlags) (fuel : Nat) (res1 : List Piece)
    (c1 : Nat) (ffA ffB : FFlags) (flags prev0 sb0 : Nat) (first0 : Bool) (pos : Nat) :
    (phonemeTail s pf fuel res1 c1 ffA flags prev0 sb0 first0 pos).map PhState.noFlags =
    (phonemeTail s pf fuel res1 c1 ffB flags prev0 sb0 first0 pos).map PhState.noFlags := by
  simp only [phonemeTail]
  by_cases hsym : pf.symbols = true ∧ first0 = false
  · rw [if_pos hsym, if_pos hsym]
    by_cases hcoin : s pos % 10 < 2
    · rw [if_pos hcoin, if_pos hcoin]
      rcases hd : drawSymbol s pf.ambiguous fuel (pos + 1) with _ | ⟨ch, p2⟩ <;>
        simp [hd, PhState.noFlags]
    · rw [if_neg hcoin, if_neg hcoin]
      simp [PhState.noFlags]
  · rw [if_neg hsym, if_neg hsym]
    simp [PhState.noFlags]

theorem phonemeAfterUpper_ff (s : Nat → Nat) (size : Int) (pf : PwFlags) (fuel : Nat)
    (st1 st2 : PhState) (flags : Nat) (txt : List Char) (ffA ffB : FFlags) (pos : Nat)
    (hres : st1.res = st2.res) (hc : st1.c = st2.c) (hprev : st1.prev = st2.prev)
    (hsb : st1.shouldBe = st2.shouldBe) (hfirst : st1.first = st2.first) :
    (phonemeAfterUpper s size pf fuel st1 flags txt ffA pos).map PhState.noFlags =
    (phonemeAfterUpper s size pf fuel st2 flags txt ffB pos).map PhState.noFlags := by
  simp only [phonemeAfterUpper, hres, hc, hprev, hsb, hfirst]
  by_cases hamb : pf.ambiguous = true ∧ ∃ ch ∈ txt, ch ∈ pw_ambiguous
  · rw [if_pos hamb, if_pos hamb]
    simp [PhState.noFlags, hres, hc, hprev, hsb, hfirst]
  · rw [if_neg hamb, if_neg hamb]
    by_cases hbreak : ((st2.c + txt.length : Nat) : Int) ≥ size
    · rw [if_pos hbreak, if_pos hbreak]
      simp [PhState.noFlags, hres, hc, hprev, hsb, hfirst]
    · rw [if_neg hbreak, if_neg hbreak]
      by_cases hdig : pf.digits = true ∧ st2.first = false
      · rw [if_pos hdig, if_pos hdig]
        by_cases hcoin : s pos % 10 < 3
        · rw [if_pos hcoin, if_pos hcoin]
          rcases hd : drawDigit s pf.ambiguous fuel (pos + 1) with _ | ⟨ch, p3⟩ <;>
            simp [hd, PhState.noFlags]
        · rw [if_neg hcoin, if_neg hcoin]
          exact phonemeTail_ff s pf fuel _ _ ffA ffB flags st2.prev st2.shouldBe
            st2.first (pos + 1)
      · rw [if_neg hdig, if_neg hdig]
        exact phonemeTail_ff s pf fuel _ _ ffA ffB flags st2.prev st2.shouldBe
          st2.first pos

theorem phonemeIter_ff (s : Nat → Nat) (size : Int) (pf : PwFlags) (fuel : Nat)
    (st : PhState) (ff2 : FFlags) :
    (phonemeIter s size pf fuel st).map PhState.noFlags =
    (phonemeIter s size pf fuel { st with ff := ff2 }).map PhState.noFlags := by
  simp only [phonemeIter]
  split
  · simp [PhState.noFlags]
  · split
    · simp [PhState.noFlags]
    · split
      · simp [PhState.noFlags]
      · split
        · simp [PhState.noFlags]
        · split
          · split
            · exact phonemeAfterUpper_ff s size pf fuel st _ _ _ _ _ _ rfl rfl rfl rfl rfl
            · exact phonemeAfterUpper_ff s size pf fuel st _ _ _ _ _ _ rfl rfl rfl rfl rfl
          · exact phonemeAfterUpper_ff s size pf fuel st _ _ _ _ _ _ rfl rfl rfl rfl rfl

theorem pw_rand_fill_done (s : Nat → Nat) (chars : List Char) (flags : PwFlags)
    (size : Int) (fuel : Nat) (res : List Char) (ff : FFlags) (pos : Nat)
    (h : ¬ ((res.length : Int) < size)) :
    pw_rand_fill s chars flags size fuel res ff pos = some (res, ff, pos) := by
  cases fuel <;> rw [pw_rand_fill] <;> rw [if_neg h]

/-- `pw_rand` for `size ≤ 2`: class satisfaction is not tracked, so the
first completed buffer is returned as the password. -/
theorem pw_rand_short_spec (size : Int) (flags : PwFlags) (remove : List Char)
    (s : Nat → Nat) (fuel : Nat) (hsz : size ≤ 2) (hck : pw_check flags remove = none) :
    pw_rand size flags remove s (fuel + 1) =
      match pw_rand_fill s (pw_valid_chars flags remove) flags size fuel [] allClear 0 with
      | some (res, _, pos2) => PwResult.ok (String.mk res) pos2
      | none => PwResult.timeout := by
  rw [pw_rand, hck]
  simp only [pw_rand_loop]
  have h2 : ¬ (2 < size) := by omega
  rw [if_neg h2]
  rcases hf : pw_rand_fill s (pw_valid_chars flags remove) flags size fuel [] allClear 0
      with _ | ⟨res, ff, p2⟩
  · simp
  · have hac := pw_rand_fill_allClear s _ flags size fuel [] 0 res ff p2 hf
    subst hac
    simp

/-! ## Claims -/

set_option maxRecDepth 16000

/-- **C1** (counterexample).  The claim fails for `pw_phonemes` when
`require_upper` and `exclude_ambiguous` are both set: with `size = 3 > 2`
and the index stream below, the capitalization step capitalizes the first
drawn element `b` to `B` and clears the pending-uppercase flag, but the
ambiguous check then rejects the element (`B` is ambiguous); the attempt
completes and is accepted, yet the returned password `"bah"` contains no
uppercase letter. -/
theorem C1_counterexample :
    pw_phonemes 3 ⟨false, true, false, true, false⟩ []
      (fun i => [0, 4, 0, 4, 5, 2].getD i 0) 10 = some "bah" ∧
    "bah".toList.all (fun ch => decide (ch ∉ pw_uppers)) = true ∧
    (3 : Int) > 2 := by
  refine ⟨by decide, by decide, by decide⟩

/-- **C1** (amended).  For every terminating run with `length > 2`:
`pw_rand` passwords contain a digit / an uppercase letter / a symbol
whenever the respective flag is set; `pw_phonemes` passwords contain a
digit whenever `require_digit` is set and a symbol whenever
`require_symbol` is set, and contain an uppercase letter whenever
`require_upper` is set *provided `exclude_ambiguous` is not set* (with
`exclude_ambiguous`, the pending-uppercase flag may be cleared on an
element that the ambiguous check subsequently rejects, so the returned
password may lack an uppercase letter). -/
theorem C1_amended :
    (∀ (size : Int) (flags : PwFlags) (remove : List Char) (s : Nat → Nat) (fuel : Nat)
        (pw : String) (pos : Nat), 2 < size →
        pw_rand size flags remove s fuel = PwResult.ok pw pos →
        (flags.digits = true → ∃ ch ∈ pw.toList, ch ∈ pw_digits) ∧
        (flags.uppers = true → ∃ ch ∈ pw.toList, ch ∈ pw_uppers) ∧
        (flags.symbols = true → ∃ ch ∈ pw.toList, ch ∈ pw_symbols)) ∧
    (∀ (size : Int) (pf : PwFlags) (remove : List Char) (s : Nat → Nat) (fuel : Nat)
        (pw : String), 2 < size →
        pw_phonemes size pf remove s fuel = some pw →
        (pf.digits = true → ∃ ch ∈ pw.toList, ch ∈ pw_digits) ∧
        (pf.uppers = true → pf.ambiguous = false → ∃ ch ∈ pw.toList, ch ∈ pw_uppers) ∧
        (pf.symbols = true → ∃ ch ∈ pw.toList, ch ∈ pw_symbols)) := by
  constructor
  · intro size flags remove s fuel pw pos hsz h
    obtain ⟨-, res, hpw, -, -, -, hclass⟩ := pw_rand_ok_spec size flags remove s fuel pw pos h
    obtain ⟨hd, hu, hy⟩ := hclass hsz
    subst hpw
    simp only [mk_toList]
    exact ⟨hd, hu, hy⟩
  · intro size pf remove s fuel pw _ h
    obtain ⟨st, hpw, hinv, -, hac⟩ := pw_phonemes_some_spec size pf remove s fuel pw h
    subst hpw
    simp only [mk_toList]
    refine ⟨?_, ?_, ?_⟩
    · intro hf
      obtain ⟨ch, hch⟩ := hinv.digf hf (by rw [hac]; rfl)
      exact ⟨ch, mem_pieceChars_of_mem hch (List.mem_singleton.mpr rfl),
        hinv.digc _ hch ch rfl⟩
    · intro hf hna
      exact hinv.uppf hf hna (by rw [hac]; rfl)
    · intro hf
      obtain ⟨ch, hch⟩ := hinv.symf hf (by rw [hac]; rfl)
      exact ⟨ch, mem_pieceChars_of_mem hch (List.mem_singleton.mpr rfl),
        hinv.symc _ hch ch rfl⟩

/-- Witness for C1: the amended theorem applied to one concrete
terminating `pw_rand` run (password `"0A!a"`) and one concrete
terminating `pw_phonemes` run (password `"Ba7ba!"`), each with all three
class flags set. -/
theorem C1_witness :
    ((∃ ch ∈ "0A!a".toList, ch ∈ pw_digits) ∧ (∃ ch ∈ "0A!a".toList, ch ∈ pw_uppers) ∧
      (∃ ch ∈ "0A!a".toList, ch ∈ pw_symbols)) ∧
    ((∃ ch ∈ "Ba7ba!".toList, ch ∈ pw_digits) ∧ (∃ ch ∈ "Ba7ba!".toList, ch ∈ pw_uppers) ∧
      (∃ ch ∈ "Ba7ba!".toList, ch ∈ pw_symbols)) := by
  constructor
  · obtain ⟨hd, hu, hy⟩ := C1_amended.1 4 ⟨true, true, true, false, false⟩ []
      (fun i => [0, 10, 62, 36].getD i 0) 6 "0A!a" 4 (by decide) (by decide)
    exact ⟨hd rfl, hu rfl, hy rfl⟩
  · obtain ⟨hd, hu, hy⟩ := C1_amended.2 6 ⟨true, true, true, false, false⟩ []
      (fun i => [0, 4, 0, 0, 0, 7, 0, 4, 9, 0, 9, 0, 0, 9].getD i 0) 12 "Ba7ba!"
      (by decide) (by decide)
    exact ⟨hd rfl, hu rfl rfl, hy rfl⟩

/-- **C2** (counterexample).  The capitalization and digit-insertion
guards test `pw_flags` (the configuration), not the pending
`feature_flags`: a single attempt can insert two digits (first run, flags
= digits only, trace holds two digit pieces) and capitalize two elements
(second run, flags = uppercase only, trace holds two capitalized
elements). -/
theorem C2_counterexample :
    (pw_phonemes_run (fun i => [0, 4, 0, 0, 7, 0, 4, 0, 0, 3, 0].getD i 0) 6
        ⟨true, false, false, false, false⟩ 12 0 =
      some ([Piece.elem ['b'] CONSONANT, Piece.elem ['a'] VOWEL, Piece.digit '7',
        Piece.elem ['b'] CONSONANT, Piece.elem ['a'] VOWEL, Piece.digit '3'], 11) ∧
      ([Piece.elem ['b'] CONSONANT, Piece.elem ['a'] VOWEL, Piece.digit '7',
        Piece.elem ['b'] CONSONANT, Piece.elem ['a'] VOWEL,
        Piece.digit '3'] : List Piece).countP pieceIsDigit = 2) ∧
    (pw_phonemes_run (fun i => [0, 4, 0, 0, 9, 4, 0, 0].getD i 0) 4
        ⟨false, true, false, false, false⟩ 12 0 =
      some ([Piece.elem ['B'] CONSONANT, Piece.elem ['a'] VOWEL,
        Piece.elem ['B'] CONSONANT, Piece.elem ['a'] VOWEL], 8) ∧
      ([Piece.elem ['B'] CONSONANT, Piece.elem ['a'] VOWEL, Piece.elem ['B'] CONSONANT,
        Piece.elem ['a'] VOWEL] : List Piece).countP
        (fun p => (Piece.text p).any (fun ch => decide (ch ∈ pw_uppers))) = 2) := by
  exact ⟨⟨by decide, by decide⟩, ⟨by decide, by decide⟩⟩

/-- **C2** (amended).  The capitalization and digit-insertion steps are
guarded by the configuration flags `pw_flags`, not by the still-pending
feature flags: an inner-loop iteration reads the pending flags only to
update them, so the produced pieces, positions and syllable state are
independent of the pending flags, and a single attempt may capitalize
several elements and insert several digits (each application clears the
corresponding pending bit, possibly redundantly). -/
theorem C2_amended : ∀ (s : Nat → Nat) (size : Int) (pf : PwFlags) (fuel : Nat)
    (st : PhState) (ff2 : FFlags),
    (phonemeIter s size pf fuel st).map PhState.noFlags =
      (phonemeIter s size pf fuel { st with ff := ff2 }).map PhState.noFlags :=
  fun s size pf fuel st ff2 => phonemeIter_ff s size pf fuel st ff2

/-- **C3** (confirmed).  If, after applying the exclusion set, a required
class has no eligible character left (or the alphabet is empty), `pw_rand`
returns a configuration error: the result is an error for every index
stream and every fuel, and coincides with the result under the constant
stream with zero fuel — generation never starts, no random index is
consumed, and there is no retry. -/
theorem C3_fail_fast (size : Int) (flags : PwFlags) (remove : List Char)
    (H : (flags.digits = true ∧ ∀ ch ∈ eligibleAlphabet flags remove, ch ∉ pw_digits) ∨
         (flags.uppers = true ∧ ∀ ch ∈ eligibleAlphabet flags remove, ch ∉ pw_uppers) ∨
         (flags.symbols = true ∧ ∀ ch ∈ eligibleAlphabet flags remove, ch ∉ pw_symbols) ∨
         eligibleAlphabet flags remove = []) :
    ∀ (s : Nat → Nat) (fuel : Nat),
      (pw_rand size flags remove s fuel).isErr = true ∧
      pw_rand size flags remove s fuel = pw_rand size flags remove (fun _ => 0) 0 := by
  obtain ⟨e, he⟩ := pw_check_isSome_of_exhausted flags remove H
  intro s fuel
  constructor
  · rw [pw_rand, he]
    rfl
  · rw [pw_rand, pw_rand, he]

/-- Witness for C3: requesting symbols while removing the whole symbol
set yields an error, identical under any stream and fuel. -/
theorem C3_witness :
    (pw_rand 8 ⟨false, false, true, false, false⟩ pw_symbols (fun _ => 0) 3).isErr = true ∧
    pw_rand 8 ⟨false, false, true, false, false⟩ pw_symbols (fun _ => 0) 3 =
      pw_rand 8 ⟨false, false, true, false, false⟩ pw_symbols (fun _ => 0) 0 :=
  C3_fail_fast 8 ⟨false, false, true, false, false⟩ pw_symbols (by decide) (fun _ => 0) 3

/-- **C4** (counterexample).  The claim fails for `pw_phonemes`, which
never reads its excluded-characters argument: with `remove = ['a']` the
returned password `"ab"` contains the removed character `'a'`. -/
theorem C4_counterexample :
    pw_phonemes 2 ⟨false, false, false, false, false⟩ ['a']
      (fun i => [1, 0, 9, 4].getD i 0) 10 = some "ab" ∧
    'a' ∈ "ab".toList ∧ 'a' ∈ (['a'] : List Char) := by
  exact ⟨by decide, by decide, by decide⟩

/-- **C4** (amended).  For the random generator `pw_rand` the claim
holds: with a non-empty excluded-character set, no character of a
returned password belongs to it.  `pw_phonemes` ignores the set entirely
(the CLI layer switches to `pw_rand` whenever removals are given). -/
theorem C4_amended : ∀ (size : Int) (flags : PwFlags) (remove : List Char)
    (s : Nat → Nat) (fuel : Nat) (pw : String) (pos : Nat) (ch : Char), remove ≠ [] →
    pw_rand size flags remove s fuel = PwResult.ok pw pos →
    ch ∈ pw.toList → ch ∉ remove := by
  intro size flags remove s fuel pw pos ch hrem h hch
  obtain ⟨-, res, hpw, -, -, hmem, -⟩ := pw_rand_ok_spec size flags remove s fuel pw pos h
  subst hpw
  rw [mk_toList] at hch
  have h1 := (hmem ch hch).1
  rw [pw_valid_chars, if_neg hrem, List.mem_filter] at h1
  have h2 := h1.2
  simp only [decide_eq_true_eq] at h2
  intro hcontra
  exact h2 (List.mem_append_left _ (List.mem_append_left _ hcontra))

/-- Witness for C4: a concrete `pw_rand` run with `remove = ['a']`
returning `"bbb"`; its first character is not a removed character. -/
theorem C4_witness : 'b' ∉ (['a'] : List Char) :=
  C4_amended 3 ⟨false, false, false, false, false⟩ ['a'] (fun _ => 0) 5 "bbb" 3 'b'
    (by decide) (by decide) (by decide)

/-- **C5** (confirmed).  With `exclude_ambiguous` set, no terminating run
of either generator returns a password containing an ambiguous
character. -/
theorem C5_no_ambiguous :
    (∀ (size : Int) (flags : PwFlags) (remove : List Char) (s : Nat → Nat) (fuel : Nat)
        (pw : String) (pos : Nat), flags.ambiguous = true →
        pw_rand size flags remove s fuel = PwResult.ok pw pos →
        ∀ ch ∈ pw.toList, ch ∉ pw_ambiguous) ∧
    (∀ (size : Int) (pf : PwFlags) (remove : List Char) (s : Nat → Nat) (fuel : Nat)
        (pw : String), pf.ambiguous = true →
        pw_phonemes size pf remove s fuel = some pw →
        ∀ ch ∈ pw.toList, ch ∉ pw_ambiguous) := by
  constructor
  · intro size flags remove s fuel pw pos hamb h ch hch
    obtain ⟨-, res, hpw, -, -, hmem, -⟩ := pw_rand_ok_spec size flags remove s fuel pw pos h
    subst hpw
    rw [mk_toList] at hch
    exact (hmem ch hch).2.1 hamb
  · intro size pf remove s fuel pw hamb h ch hch
    obtain ⟨st, hpw, hinv, -, -⟩ := pw_phonemes_some_spec size pf remove s fuel pw h
    subst hpw
    rw [mk_toList] at hch
    exact hinv.amb hamb ch hch

/-- Witness for C5: a `pw_rand` run (`"aaa"`) and a `pw_phonemes` run
(`"bah"`), both with `exclude_ambiguous` set, applied at their first
characters. -/
theorem C5_witness : 'a' ∉ pw_ambiguous ∧ 'b' ∉ pw_ambiguous :=
  ⟨C5_no_ambiguous.1 3 ⟨false, false, false, true, false⟩ [] (fun _ => 0) 5 "aaa" 3
      rfl (by decide) 'a' (by decide),
    C5_no_ambiguous.2 3 ⟨false, true, false, true, false⟩ []
      (fun i => [0, 4, 0, 4, 5, 2].getD i 0) 10 "bah" rfl (by decide) 'b' (by decide)⟩

/-- **C6** (confirmed).  Every terminating run of either generator with
`length > 0` returns a password of exactly `length` characters (in the
phoneme generator, elements whose text would overflow the target are
rejected and redrawn, so the buffer never overshoots). -/
theorem C6_exact_length :
    (∀ (size : Int) (flags : PwFlags) (remove : List Char) (s : Nat → Nat) (fuel : Nat)
        (pw : String) (pos : Nat), 0 < size →
        pw_rand size flags remove s fuel = PwResult.ok pw pos →
        (pw.length : Int) = size) ∧
    (∀ (size : Int) (pf : PwFlags) (remove : List Char) (s : Nat → Nat) (fuel : Nat)
        (pw : String), 0 < size →
        pw_phonemes size pf remove s fuel = some pw →
        (pw.length : Int) = size) := by
  constructor
  · intro size flags remove s fuel pw pos hsz h
    obtain ⟨-, res, hpw, hexit, hle, -, -⟩ := pw_rand_ok_spec size flags remove s fuel pw pos h
    subst hpw
    rw [mk_length]
    rcases hle with h1 | h1
    · omega
    · subst h1
      simp only [List.length_nil] at hexit ⊢
      omega
  · intro size pf remove s fuel pw hsz h
    obtain ⟨st, hpw, hinv, hexit, -⟩ := pw_phonemes_some_spec size pf remove s fuel pw h
    subst hpw
    rw [mk_length, hinv.len_eq]
    rcases hinv.le_size with h1 | h1
    · omega
    · rw [h1] at hexit ⊢
      omega

/-- Witness for C6: a `pw_rand` run returning `"aaa"` for `length = 3`
and a `pw_phonemes` run returning `"ab"` for `length = 2`. -/
theorem C6_witness : (("aaa" : String).length : Int) = 3 ∧ (("ab" : String).length : Int) = 2 :=
  ⟨C6_exact_length.1 3 ⟨false, false, false, false, false⟩ [] (fun _ => 0) 5 "aaa" 3
      (by decide) (by decide),
    C6_exact_length.2 2 ⟨false, false, false, false, false⟩ ['a']
      (fun i => [1, 0, 9, 4].getD i 0) 10 "ab" (by decide) (by decide)⟩

/-- **C7** (confirmed).  For `size ≤ 2` (after the fail-fast checks pass)
no class satisfaction is enforced: the working flags start cleared, the
first completed buffer is always accepted, and the result is exactly the
first fill's output. -/
theorem C7_short_no_enforcement (size : Int) (flags : PwFlags) (remove : List Char)
    (s : Nat → Nat) (fuel : Nat) (hsz : size ≤ 2) (hck : pw_check flags remove = none) :
    pw_rand size flags remove s (fuel + 1) =
      match pw_rand_fill s (pw_valid_chars flags remove) flags size fuel [] allClear 0 with
      | some (res, _, pos2) => PwResult.ok (String.mk res) pos2
      | none => PwResult.timeout :=
  pw_rand_short_spec size flags remove s fuel hsz hck

/-- Witness for C7: `length = 1` with `require_digit` and `require_upper`
both set succeeds on the first draw and returns the single character
`"0"`. -/
theorem C7_witness :
    pw_rand 1 ⟨true, true, false, false, false⟩ [] (fun _ => 0) (4 + 1) =
      PwResult.ok (String.mk ['0']) 1 :=
  (C7_short_no_enforcement 1 ⟨true, true, false, false, false⟩ [] (fun _ => 0) 4
    (by decide) (by decide)).trans (by decide)

/-- **C8** (confirmed).  In every piece trace returned by the phoneme
generator, a `NOT_FIRST` element never sits at the head, and the adjacency
relation `nfRel` holds throughout: a `NOT_FIRST` element never directly
follows an inserted digit (digit insertion resets the syllable-start
flag, which rejects `NOT_FIRST` draws until an element is placed). -/
theorem C8_not_first : ∀ (size : Int) (pf : PwFlags) (s : Nat → Nat) (fuel pos : Nat)
    (res : List Piece) (pos2 : Nat),
    pw_phonemes_run s size pf fuel pos = some (res, pos2) →
    (∀ p, res.head? = some p → pieceNF p = false) ∧ List.Chain' nfRel res := by
  intro size pf s fuel pos res pos2 h
  obtain ⟨st, hres, hinv, -, -⟩ := pw_phonemes_run_spec s size pf fuel pos res pos2 h
  subst hres
  exact ⟨hinv.nf_head, hinv.nf_chain⟩

/-- Witness for C8: the trace of a concrete run, with the head-element
fact instantiated at its actual head piece. -/
theorem C8_witness :
    pieceNF (Piece.elem ['a'] VOWEL) = false ∧
    List.Chain' nfRel [Piece.elem ['a'] VOWEL, Piece.elem ['b'] CONSONANT] := by
  have h := C8_not_first 2 ⟨false, false, false, false, false⟩
    (fun i => [1, 0, 9, 4].getD i 0) 10 0
    [Piece.elem ['a'] VOWEL, Piece.elem ['b'] CONSONANT] 4 (by decide)
  exact ⟨h.1 (Piece.elem ['a'] VOWEL) rfl, h.2⟩

/-- **C9** (confirmed).  `pw_phonemes` never reads its `remove` argument:
with the same size, flags, index stream and fuel, any two removal lists
produce identical results. -/
theorem C9_remove_unused : ∀ (size : Int) (pf : PwFlags) (r1 r2 : List Char)
    (s : Nat → Nat) (fuel : Nat),
    pw_phonemes size pf r1 s fuel = pw_phonemes size pf r2 s fuel :=
  fun _ _ _ _ _ _ => rfl

/-- **C10** (confirmed).  For `size ≤ 0` (and fail-fast checks passing),
`pw_rand` returns the empty string on its first attempt: class tracking
is off because `size ≤ 2`, the fill loop body never runs, and the
returned stream position is still `0` — no random index was consumed. -/
theorem C10_zero_size (size : Int) (flags : PwFlags) (remove : List Char) (s : Nat → Nat)
    (fuel : Nat) (hsz : size ≤ 0) (hck : pw_check flags remove = none) :
    pw_rand size flags remove s (fuel + 1) = PwResult.ok (String.mk []) 0 := by
  have h1 := pw_rand_short_spec size flags remove s fuel (by omega) hck
  have h2 : ¬ ((([] : List Char).length : Int) < size) := by
    simp only [List.length_nil, Int.natCast_zero]
    omega
  rw [h1, pw_rand_fill_done s _ flags size fuel [] allClear 0 h2]

/-- Witness for C10: `size = 0` with every flag set returns the empty
string without consuming an index. -/
theorem C10_witness :
    pw_rand 0 ⟨true, true, true, true, true⟩ [] (fun _ => 0) (0 + 1) =
      PwResult.ok (String.mk []) 0 :=
  C10_zero_size 0 ⟨true, true, true, true, true⟩ [] (fun _ => 0) 0 (by decide) (by decide)

end Pwgen
